import Mathlib

/-!
Shallow embedding of the SeeNote spectrogram/annotation engine.

Sources embedded here (TypeScript):
- `types.ts`: `Label`, `LabelConfig`, `FrequencyScale`.
- `utils/audioProcessing.ts`: `generateSpectrogramData` (STFT analyzer)
  and the row-to-frequency mapping of `drawSpectrogramChunk`.
- `utils/helpers.ts`: `calculateLabelLayers`, `exportToAudacity`.
- `components/Spectrogram.tsx`: `getPointerTime`, the resize/drag branches
  of `handleMouseMove`, the label-creation branch of `handleMouseUp`,
  and the `renderTick` frequency-to-row mapping.
- `App.tsx`: the reassign branch of `handleDeleteCategory`.

Modelling conventions:
- JavaScript 64-bit floats are modelled exactly: rational-valued state uses
  `ℚ`, and the transcendental primitives used by the STFT (`Math.cos`,
  `Math.sin`, `Math.sqrt`, `Math.log10`, `Math.PI`) are abstracted into a
  `MathPrims` record over an arbitrary `LinearOrderedField`, so every
  STFT-level statement is parametric in those primitives.  The real-valued
  scale mappers (which need `Math.pow`/`Math.log` identities) are embedded
  over `ℝ` with `Real.rpow`/`Real.log`/`Real.logb`.
- The `Uint8Array` output buffer of the analyzer is modelled as a total map
  `ℕ → R` storing the clamped intensity value (8-bit quantisation of the
  store is abstracted away, as is float rounding).
- JavaScript typed-array semantics for out-of-range indices (reads yield a
  default, writes are dropped) are modelled by `Array.getD` / `Array.setD`;
  for the power-of-two FFT sizes the claims are about, all accesses are in
  bounds so the default is never consulted.
- Failure paths are explicit: `new Uint8Array(width * height)` throws a
  `RangeError` exactly when ECMA-262 `ToIndex` truncates `width * height`
  to a negative integer, so `generateSpectrogramData` returns
  `Except JsError _` and errors precisely on `width * height ≤ -1`; the
  tick formula's divisions produce NaN/±Infinity (no finite row, tick
  skipped) exactly when their denominator is zero, so `frequencyToRow`
  returns `Option ℝ` with `none` on a zero denominator.
-/

namespace SeeNote

/-- The transcendental/irrational primitives the analyzer calls
(`Math.PI`, `Math.cos`, `Math.sin`, `Math.sqrt`, `Math.log10`),
abstracted so the embedding stays executable over `ℚ`. -/
structure MathPrims (R : Type) where
  pi : R
  cos : R → R
  sin : R → R
  sqrt : R → R
  log10 : R → R

variable {R : Type} [LinearOrderedField R]

/-- Source `types.ts`: `interface Label`.  `start`/`end` (seconds) are named
`startSec`/`endSec` because `end` is a Lean keyword; `color` and
`layerIndex` are optional in the source (`color?`, `layerIndex?`). -/
structure Label where
  id : String
  configId : String
  startSec : ℚ
  endSec : ℚ
  text : String
  color : Option String
  layerIndex : Option ℕ
  deriving DecidableEq

/-- Source `types.ts`: `interface LabelConfig`. -/
structure LabelConfig where
  key : String
  text : String
  color : String
  deriving DecidableEq

/-- Source `types.ts`: `type FrequencyScale = 'linear' | 'log' | 'mel'`. -/
inductive FrequencyScale where
  | linear
  | log
  | mel
  deriving DecidableEq

/-- Result record of a successful `generateSpectrogramData` call:
`{ data: Uint8Array; width: number; height: number; sampleRate: number }`.
`width` is the integer `Math.floor((length - fftSize) / hopSize)`; when
it is negative the allocation throws instead (see
`generateSpectrogramData`), except in the degenerate `fftSize ≤ 1`
cases where `width * height` still truncates to a non-negative length.
`height` is the exact JS number `fftSize / 2`, fractional when
`fftSize` is odd. -/
structure SpectrogramData (R : Type) where
  data : ℕ → R
  width : ℤ
  height : ℚ
  sampleRate : ℚ

/-- The runtime failure the analyzer can actually raise: the
`new Uint8Array(width * height)` allocation at `audioProcessing.ts`
line 87 throws a `RangeError` when the requested length is negative. -/
inductive JsError where
  | rangeError
  deriving DecidableEq

/-- Source `audioProcessing.ts` line 92: Hann window,
`window[i] = 0.5 * (1 - Math.cos((2 * Math.PI * i) / (fftSize - 1)))`. -/
def hannWindow (P : MathPrims R) (fftSize i : ℕ) : R :=
  1/2 * (1 - P.cos (2 * P.pi * (i : R) / ((fftSize : R) - 1)))

/-- Source `audioProcessing.ts` lines 97-103: `reverseBits(x, n)`. -/
def reverseBits (x n : ℕ) : ℕ :=
  (List.range n).foldl
    (fun result i => if (x >>> i) &&& 1 = 1 then result ||| (1 <<< (n - 1 - i)) else result) 0

/-- Source `audioProcessing.ts` line 114: `cosTable[i] = Math.cos(-2 * Math.PI * i / fftSize)`. -/
def cosTable (P : MathPrims R) (fftSize k : ℕ) : R :=
  P.cos (-2 * P.pi * (k : R) / (fftSize : R))

/-- Source `audioProcessing.ts` line 113: `sinTable[i] = Math.sin(-2 * Math.PI * i / fftSize)`. -/
def sinTable (P : MathPrims R) (fftSize k : ℕ) : R :=
  P.sin (-2 * P.pi * (k : R) / (fftSize : R))

/-- Source `audioProcessing.ts` lines 118-144: the iterative radix-2 FFT
(`performFFT`), including the windowed bit-reversed load.  The source
loop `for (let size = 2; size <= fftSize; size *= 2)` runs once per
doubling, i.e. `Nat.log2 fftSize` times with `size = 2^(s+1)`; the inner
loop `for (let i = 0; i < fftSize; i += size)` runs `⌈fftSize/size⌉`
times; `bits = Math.log2(fftSize)` drives a `i < bits` loop, i.e.
`⌈log2 fftSize⌉ = Nat.clog 2 fftSize` iterations.  For the power-of-two
sizes the analyzer contract is about, all loop counts agree with the
source exactly and every index is in bounds. -/
def performFFT (P : MathPrims R) (fftSize : ℕ) (input : Array R) : Array R × Array R :=
  Id.run do
    let bits := Nat.clog 2 fftSize
    let mut real : Array R := Array.mkArray fftSize 0
    let mut imag : Array R := Array.mkArray fftSize 0
    for i in List.range fftSize do
      real := real.setD (reverseBits i bits) (input.getD i 0 * hannWindow P fftSize i)
      imag := imag.setD (reverseBits i bits) 0
    for s in List.range (Nat.log2 fftSize) do
      let size := 2 ^ (s + 1)
      let halfSize := size / 2
      let step := fftSize / size
      for ii in List.range ((fftSize + size - 1) / size) do
        let i := ii * size
        for j in List.range halfSize do
          let k := j * step
          let tReal := real.getD (i + j + halfSize) 0 * cosTable P fftSize k -
            imag.getD (i + j + halfSize) 0 * sinTable P fftSize k
          let tImag := real.getD (i + j + halfSize) 0 * sinTable P fftSize k +
            imag.getD (i + j + halfSize) 0 * cosTable P fftSize k
          real := real.setD (i + j + halfSize) (real.getD (i + j) 0 - tReal)
          imag := imag.setD (i + j + halfSize) (imag.getD (i + j) 0 - tImag)
          real := real.setD (i + j) (real.getD (i + j) 0 + tReal)
          imag := imag.setD (i + j) (imag.getD (i + j) 0 + tImag)
    return (real, imag)

/-- Source `audioProcessing.ts` lines 157-164: magnitude, dB conversion and
clamping for one bin of one column:
`mag = sqrt(r[bin]^2 + i[bin]^2)`, `val = 20*log10(mag + 1e-6)`,
`intensity = (val + 60) * 4` clamped into `[0, 255]`. -/
def columnIntensity (P : MathPrims R) (fftSize : ℕ) (chunk : Array R) (bin : ℕ) : R :=
  let fr := performFFT P fftSize chunk
  let mag := P.sqrt (fr.1.getD bin 0 * fr.1.getD bin 0 + fr.2.getD bin 0 * fr.2.getD bin 0)
  let val := 20 * P.log10 (mag + 1/1000000)
  let intensity := (val + 60) * 4
  if intensity < 0 then 0 else if intensity > 255 then 255 else intensity

/-- Source `audioProcessing.ts` lines 147-169, one iteration of the main
processing loop: run the FFT on the frame starting at `col * hopSize`
and store each bin at flat index `col * height + (height - 1 - bin)`. -/
def writeColumn (P : MathPrims R) (samples : List R) (fftSize hopSize : ℕ)
    (buf : ℕ → R) (col : ℕ) : ℕ → R :=
  (List.range (fftSize / 2)).foldl
    (fun b bin =>
      Function.update b (col * (fftSize / 2) + (fftSize / 2 - 1 - bin))
        (columnIntensity P fftSize (((samples.drop (col * hopSize)).take fftSize).toArray) bin))
    buf

/-- One main-loop step including the `chunk.length < fftSize` guard
(`audioProcessing.ts` line 151).  The source `break`s there; since the
guard is monotone in `col` (frames start later and later), skipping the
column is observationally identical to breaking. -/
def specStep (P : MathPrims R) (samples : List R) (fftSize hopSize : ℕ)
    (buf : ℕ → R) (col : ℕ) : ℕ → R :=
  if samples.length - col * hopSize < fftSize then buf
  else writeColumn P samples fftSize hopSize buf col

/-- The record built by a successful run of `generateSpectrogramData`:
the main loop (`audioProcessing.ts` lines 147-175) fills the output
buffer column by column, and line 177 returns
`{ data, width, height, sampleRate }`.  The returned `height` is the
exact JS number `fftSize / 2`; the loop bounds and flat storage indices
of `writeColumn` use the integer `fftSize / 2 : ℕ`, which coincides with
it for every even `fftSize` (all data-level claims restrict to powers of
two; for odd `fftSize` the JS indices are fractional and those
typed-array writes are silently dropped). -/
def spectrogramRecord (P : MathPrims R) (samples : List R)
    (fftSize hopSize : ℕ) (sampleRate : ℚ) : SpectrogramData R :=
  let length := samples.length
  let width : ℤ := ((length : ℤ) - (fftSize : ℤ)).fdiv (hopSize : ℤ)
  let height : ℚ := (fftSize : ℚ) / 2
  let outputData : ℕ → R :=
    (List.range width.toNat).foldl (specStep P samples fftSize hopSize) (fun _ => 0)
  ⟨outputData, width, height, sampleRate⟩

/-- Source `audioProcessing.ts` lines 74-178: `generateSpectrogramData`.
`width = Math.floor((length - fftSize) / hopSize)` (floor division on
integers is `Int.fdiv`, for the modelled domain `hopSize ≥ 1`; with
`hopSize ≤ 0` the JS width is `±Infinity`/`NaN`, outside this model),
`height = fftSize / 2` (exact, fractional for odd `fftSize`).  Line 87
allocates `new Uint8Array(width * height)`: per ECMA-262 `ToIndex`, the
length is truncated toward zero and a negative result throws a
`RangeError` — i.e. the call fails exactly when `width * height ≤ -1`
(in particular whenever the buffer is shorter than one frame and
`fftSize ≥ 2`).  Otherwise the main loop runs and the record is
returned; the function performs no validation of `fftSize` or
`hopSize`. -/
def generateSpectrogramData (P : MathPrims R) (samples : List R)
    (fftSize hopSize : ℕ) (sampleRate : ℚ) : Except JsError (SpectrogramData R) :=
  let length := samples.length
  let width : ℤ := ((length : ℤ) - (fftSize : ℤ)).fdiv (hopSize : ℤ)
  let height : ℚ := (fftSize : ℚ) / 2
  if (width : ℚ) * height ≤ -1 then Except.error JsError.rangeError
  else Except.ok (spectrogramRecord P samples fftSize hopSize sampleRate)

/-- Concrete instantiation of the abstract math primitives over `ℚ`,
used to evaluate the analyzer on concrete inputs. -/
def ratPrims : MathPrims ℚ :=
  ⟨0, fun _ => 0, fun _ => 0, fun _ => 0, fun _ => 0⟩

/-- Source `audioProcessing.ts` line 181 (and `Spectrogram.tsx` line 455):
`toMel = (f) => 2595 * Math.log10(1 + f / 700)`. -/
noncomputable def toMel (f : ℝ) : ℝ := 2595 * Real.logb 10 (1 + f / 700)

/-- Source `audioProcessing.ts` line 182 (and `Spectrogram.tsx` line 456):
`fromMel = (m) => 700 * (Math.pow(10, m / 2595) - 1)`. -/
noncomputable def fromMel (m : ℝ) : ℝ := 700 * ((10 : ℝ) ^ (m / 2595) - 1)

/-- Source `audioProcessing.ts` lines 210-227 (`drawSpectrogramChunk` binMap
loop): the renderer's row-to-frequency formula.  `y = 0` is the top of
the canvas; `normY = 1 - y / canvasHeight`. -/
noncomputable def rowToFrequency (scale : FrequencyScale)
    (minFreq maxFreq canvasHeight y : ℝ) : ℝ :=
  let normY := 1 - y / canvasHeight
  let safeMinFreq := max minFreq 1
  match scale with
  | FrequencyScale.linear => minFreq + normY * (maxFreq - minFreq)
  | FrequencyScale.log => safeMinFreq * (maxFreq / safeMinFreq) ^ normY
  | FrequencyScale.mel =>
      let minM := toMel minFreq
      let maxM := toMel maxFreq
      fromMel (minM + normY * (maxM - minM))

/-- Source `Spectrogram.tsx` lines 601-616 (`renderTick`): the axis-tick
frequency-to-row formula, `y = height - pct * height` with the
per-scale `pct`.  JS division is total over IEEE floats: when `pct`'s
denominator is zero the quotient is NaN (`0/0`) or `±Infinity`, `y` is
non-finite, and the tick is skipped by the `y >= 0 && y <= height`
check at line 618 — no finite row is produced.  That is modelled as
`Option ℝ`: `none` exactly when the denominator is zero (for the
non-negative frequency bounds of the view state, where the `Math.log`
arguments stay positive), `some` of the exact real quotient
otherwise. -/
noncomputable def frequencyToRow (scale : FrequencyScale)
    (minFreq maxFreq height freq : ℝ) : Option ℝ :=
  match scale with
  | FrequencyScale.linear =>
      if maxFreq - minFreq = 0 then none
      else some (height - (freq - minFreq) / (maxFreq - minFreq) * height)
  | FrequencyScale.log =>
      let minSafe := max minFreq 1
      if Real.log (maxFreq / minSafe) = 0 then none
      else some (height - Real.log (freq / minSafe) / Real.log (maxFreq / minSafe) * height)
  | FrequencyScale.mel =>
      let minM := toMel minFreq
      let maxM := toMel maxFreq
      if maxM - minM = 0 then none
      else some (height - (toMel freq - minM) / (maxM - minM) * height)

/-- Ordering of labels by start time, the comparator
`(a, b) => a.start - b.start` of `calculateLabelLayers`. -/
def startLE (a b : Label) : Prop := a.startSec ≤ b.startSec

instance : DecidableRel startLE := fun a b => by unfold startLE; infer_instance

instance : IsTotal Label startLE := ⟨fun a b => le_total a.startSec b.startSec⟩

instance : IsTrans Label startLE := ⟨fun _ _ _ => le_trans⟩

/-- Source `helpers.ts` lines 304-318, the lane search of `calculateLabelLayers`:
scan the lane-end-time list for the first lane with
`layers[i] + 0.1 <= label.start`; on a hit overwrite that lane's end
time, otherwise append a new lane.  Returns the assigned lane index and
the updated lane list. -/
def place (s e : ℚ) : List ℚ → ℕ × List ℚ
  | [] => (0, [e])
  | t :: rest =>
      if t + 1/10 ≤ s then (0, e :: rest)
      else
        let p := place s e rest
        (p.1 + 1, t :: p.2)

/-- One `sorted.forEach` iteration of `calculateLabelLayers`: place the
label, record its `layerIndex`, and push it onto the processed list. -/
def layerStep (acc : List Label × List ℚ) (label : Label) : List Label × List ℚ :=
  let p := place label.startSec label.endSec acc.2
  (acc.1 ++ [{ label with layerIndex := some p.1 }], p.2)

/-- Source `helpers.ts` lines 298-322: `calculateLabelLayers`.  Sort by start
time (JS `Array.prototype.sort` is stable; so is insertion sort), then
greedily assign lanes. -/
def calculateLabelLayers (labels : List Label) : List Label :=
  ((List.insertionSort startLE labels).foldl layerStep ([], [])).1

/-- Source `Spectrogram.tsx` lines 735-742: `getPointerTime`, with
`x = clientX - rect.left`: `t = (x + scrollLeft) / pixelsPerSecond`
clamped into `[0, duration]`. -/
def getPointerTime (x scrollLeft pixelsPerSecond duration : ℚ) : ℚ :=
  max 0 (min ((x + scrollLeft) / pixelsPerSecond) duration)

/-- Which edge handle a resize gesture grabbed
(`'start' | 'end'` in the source; `end` is a Lean keyword). -/
inductive ResizeSide where
  | start
  | stop
  deriving DecidableEq

/-- Source `Spectrogram.tsx` lines 781-790, the resize branch of
`handleMouseMove`: the moving edge is kept `0.05`s (= 1/20) away from
the fixed edge: `start := Math.min(t, l.end - 0.05)` or
`end := Math.max(t, l.start + 0.05)` on the label with the matching id. -/
def resizeLabelAt (id : String) (side : ResizeSide) (t : ℚ) (labels : List Label) :
    List Label :=
  labels.map fun l =>
    if l.id = id then
      match side with
      | ResizeSide.start => { l with startSec := min t (l.endSec - 1/20) }
      | ResizeSide.stop => { l with endSec := max t (l.startSec + 1/20) }
    else l

/-- Source `Spectrogram.tsx` lines 793-804, the drag branch of
`handleMouseMove`: `newStart = Math.max(0, t - startOffset)`, the end
follows at the preserved duration.  Note there is no upper clamp. -/
def dragLabelAt (id : String) (t startOffset : ℚ) (labels : List Label) : List Label :=
  labels.map fun l =>
    if l.id = id then
      let dur := l.endSec - l.startSec
      let newStart := max 0 (t - startOffset)
      { l with startSec := newStart, endSec := newStart + dur }
    else l

/-- Source `Spectrogram.tsx` lines 810-830, the label-creation commit of
`handleMouseUp`: with `start = min(anchor, current)` and
`end = max(anchor, current)`, append a new label only when
`end - start > 0.05`; the new label takes the active category's key and
color, and its text unless the active category is the reserved `"0"`. -/
def commitCreatingLabel (activeLabelConfig : LabelConfig) (newId : String)
    (anchor current : ℚ) (labels : List Label) : List Label :=
  let s := min anchor current
  let e := max anchor current
  if e - s > 1/20 then
    labels ++ [{ id := newId, configId := activeLabelConfig.key, startSec := s, endSec := e,
                 text := if activeLabelConfig.key = "0" then "" else activeLabelConfig.text,
                 color := some activeLabelConfig.color, layerIndex := none }]
  else labels

/-- Source `App.tsx` lines 277-284, the reassign ("Convert") branch of
`handleDeleteCategory`: every label referencing the deleted category's
key is rebound to the default category `"0"` with color `"#ffffff"`. -/
def reassignLabelsToDefault (key : String) (labels : List Label) : List Label :=
  labels.map fun l =>
    if l.configId = key then { l with configId := "0", color := some "#ffffff" } else l

/-- JavaScript `Number.prototype.toFixed(6)` on a non-negative rational:
round to the nearest multiple of `10⁻⁶` (ties away from zero, which for
the ECMA-262 "pick the larger n" rule is `⌊q·10⁶ + 1/2⌋`), then print
with exactly six fractional digits. -/
def toFixed6 (q : ℚ) : String :=
  let n : ℕ := (Int.floor (q * 1000000 + 1/2)).toNat
  let fr := toString (n % 1000000)
  toString (n / 1000000) ++ "." ++ (String.mk (List.replicate (6 - fr.length) '0') ++ fr)

/-- One exported line of `exportToAudacity` (`helpers.ts` line 384):
`` `${l.start.toFixed(6)}\t${l.end.toFixed(6)}\t${l.text}\n` ``. -/
def audacityLine (l : Label) : String :=
  toFixed6 l.startSec ++ "\t" ++ toFixed6 l.endSec ++ "\t" ++ l.text ++ "\n"

/-- Source `helpers.ts` lines 377-388: the text content built by
`exportToAudacity` (the file-saving shell around it is I/O): start from
the empty string — no header — and append one line per label in order. -/
def exportToAudacityContent (labels : List Label) : String :=
  labels.foldl (fun txtContent l => txtContent ++ audacityLine l) ""

/-! ## General helper lemmas -/

theorem foldl_update_of_forall_ne {β : Type} (keyf : ℕ → ℕ) (valf : ℕ → β) (k : ℕ) :
    ∀ (l : List ℕ) (buf : ℕ → β), (∀ x ∈ l, keyf x ≠ k) →
      l.foldl (fun b x => Function.update b (keyf x) (valf x)) buf k = buf k := by
  intro l
  induction l with
  | nil => intro buf _; rfl
  | cons a l ih =>
      intro buf h
      rw [List.foldl_cons, ih _ (fun x hx => h x (List.mem_cons_of_mem _ hx))]
      exact Function.update_noteq (Ne.symm (h a (List.mem_cons_self a l))) _ _

theorem foldl_update_of_mem {β : Type} (keyf : ℕ → ℕ) (valf : ℕ → β) (k : ℕ) (v : β) :
    ∀ (l : List ℕ) (buf : ℕ → β), (∃ x ∈ l, keyf x = k) → (∀ x ∈ l, keyf x = k → valf x = v) →
      l.foldl (fun b x => Function.update b (keyf x) (valf x)) buf k = v := by
  intro l
  induction l with
  | nil =>
      rintro buf ⟨x, hx, -⟩ _
      exact absurd hx (List.not_mem_nil x)
  | cons a l ih =>
      rintro buf ⟨x, hx, hkx⟩ hval
      rw [List.foldl_cons]
      by_cases hex : ∃ y ∈ l, keyf y = k
      · exact ih _ hex (fun y hy => hval y (List.mem_cons_of_mem _ hy))
      · have hxa : keyf a = k := by
          rcases List.mem_cons.mp hx with rfl | hxl
          · exact hkx
          · exact absurd ⟨x, hxl, hkx⟩ hex
        rw [foldl_update_of_forall_ne keyf valf k l _ (fun y hy hc => hex ⟨y, hy, hc⟩)]
        subst hxa
        rw [Function.update_same]
        exact hval a (List.mem_cons_self a l) rfl

theorem getD_set_self (l : List ℚ) (i : ℕ) (hi : i < l.length) (v : ℚ) :
    (l.set i v).getD i 0 = v := by
  rw [List.getD_eq_getElem?_getD, List.getElem?_set_self hi]
  rfl

theorem getD_set_ne (l : List ℚ) (i j : ℕ) (hij : i ≠ j) (v : ℚ) :
    (l.set i v).getD j 0 = l.getD j 0 := by
  rw [List.getD_eq_getElem?_getD, List.getElem?_set_ne hij, ← List.getD_eq_getElem?_getD]

theorem getD_append_self (l : List ℚ) (v : ℚ) : (l ++ [v]).getD l.length 0 = v := by
  induction l with
  | nil => rfl
  | cons a l ih => simp

theorem string_foldl_append (g : Label → String) :
    ∀ (xs : List Label) (s : String),
      xs.foldl (fun acc l => acc ++ g l) s = s ++ xs.foldl (fun acc l => acc ++ g l) "" := by
  intro xs
  induction xs with
  | nil => intro s; simp
  | cons x xs ih =>
      intro s
      rw [List.foldl_cons, List.foldl_cons, ih (s ++ g x), ih ("" ++ g x)]
      simp [String.append_assoc]

/-! ## Lane-placement (`place`) lemmas -/

theorem place_cons_pos (s e t : ℚ) (rest : List ℚ) (hc : t + 1/10 ≤ s) :
    place s e (t :: rest) = (0, e :: rest) := by
  simp only [place]
  rw [if_pos hc]

theorem place_cons_neg (s e t : ℚ) (rest : List ℚ) (hc : ¬ t + 1/10 ≤ s) :
    place s e (t :: rest) = ((place s e rest).1 + 1, t :: (place s e rest).2) := by
  simp only [place]
  rw [if_neg hc]

theorem place_idx_le (s e : ℚ) : ∀ ls : List ℚ, (place s e ls).1 ≤ ls.length := by
  intro ls
  induction ls with
  | nil => simp [place]
  | cons t rest ih =>
      by_cases hc : t + 1/10 ≤ s
      · rw [place_cons_pos s e t rest hc]
        simp
      · rw [place_cons_neg s e t rest hc, List.length_cons]
        omega

theorem place_found (s e : ℚ) : ∀ ls : List ℚ, (place s e ls).1 < ls.length →
    ls.getD (place s e ls).1 0 + 1/10 ≤ s ∧ (place s e ls).2 = ls.set (place s e ls).1 e := by
  intro ls
  induction ls with
  | nil => intro h; simp [place] at h
  | cons t rest ih =>
      intro hlt
      by_cases hc : t + 1/10 ≤ s
      · rw [place_cons_pos s e t rest hc]
        exact ⟨hc, rfl⟩
      · rw [place_cons_neg s e t rest hc]
        rw [place_cons_neg s e t rest hc, List.length_cons] at hlt
        obtain ⟨ha, hb⟩ := ih (by omega)
        refine ⟨?_, ?_⟩
        · rw [List.getD_cons_succ]
          exact ha
        · rw [hb]
          rfl

theorem place_new (s e : ℚ) : ∀ ls : List ℚ, ¬ (place s e ls).1 < ls.length →
    (place s e ls).1 = ls.length ∧ (place s e ls).2 = ls ++ [e] := by
  intro ls
  induction ls with
  | nil => intro _; simp [place]
  | cons t rest ih =>
      intro hge
      by_cases hc : t + 1/10 ≤ s
      · rw [place_cons_pos s e t rest hc] at hge
        simp at hge
      · rw [place_cons_neg s e t rest hc] at hge ⊢
        rw [List.length_cons] at hge
        obtain ⟨ha, hb⟩ := ih (by omega)
        refine ⟨?_, ?_⟩
        · rw [ha, List.length_cons]
        · rw [hb]
          rfl

/-! ## Layering fold invariant (for C10) -/

theorem layerFold_inv :
    ∀ (rest : List Label) (processed : List Label) (layers : List ℚ),
      (∀ p ∈ processed, ∃ i, p.layerIndex = some i ∧ i < layers.length ∧
        p.endSec ≤ layers.getD i 0) →
      (∀ p ∈ processed, ∀ q ∈ processed, p.layerIndex = q.layerIndex →
        p.startSec < q.startSec → p.endSec + 1/10 ≤ q.startSec) →
      (∀ l ∈ rest, l.startSec < l.endSec) →
      (∀ p ∈ processed, ∀ l ∈ rest, p.startSec ≤ l.startSec) →
      List.Sorted startLE rest →
      ∀ p ∈ (rest.foldl layerStep (processed, layers)).1,
      ∀ q ∈ (rest.foldl layerStep (processed, layers)).1,
        p.layerIndex = q.layerIndex → p.startSec < q.startSec →
        p.endSec + 1/10 ≤ q.startSec := by
  intro rest
  induction rest with
  | nil =>
      intro processed layers _ hB _ _ _
      exact hB
  | cons s rest ih =>
      intro processed layers hA hB hdur hord hsort
      rw [List.foldl_cons]
      have hse : s.startSec < s.endSec := hdur s (List.mem_cons_self s rest)
      obtain ⟨hs_rest, hsort'⟩ := List.sorted_cons.mp hsort
      -- notation for the step result
      set i := (place s.startSec s.endSec layers).1 with hi
      set layers₂ := (place s.startSec s.endSec layers).2 with hl2
      set s' : Label := { s with layerIndex := some i } with hs'
      have hstep : layerStep (processed, layers) s = (processed ++ [s'], layers₂) := rfl
      rw [hstep]
      -- the new label satisfies the lane-record invariant, and both invariants extend
      have hA' : ∀ p ∈ processed ++ [s'], ∃ j, p.layerIndex = some j ∧ j < layers₂.length ∧
          p.endSec ≤ layers₂.getD j 0 := by
        intro p hp
        by_cases hf : i < layers.length
        · obtain ⟨hle, hset⟩ := place_found s.startSec s.endSec layers hf
          rcases List.mem_append.mp hp with hp | hp
          · obtain ⟨j, hj1, hj2, hj3⟩ := hA p hp
            refine ⟨j, hj1, ?_, ?_⟩
            · rw [hl2, hset, List.length_set]
              exact hj2
            · rw [hl2, hset]
              by_cases hji : i = j
              · subst hji
                rw [getD_set_self layers i hf]
                have := hle
                linarith
              · rw [getD_set_ne layers i j hji]
                exact hj3
          · have hp' : p = s' := by simpa using hp
            subst hp'
            refine ⟨i, rfl, ?_, ?_⟩
            · rw [hl2, hset, List.length_set]
              exact hf
            · rw [hl2, hset]
              rw [getD_set_self layers i hf]
        · obtain ⟨hieq, happ⟩ := place_new s.startSec s.endSec layers hf
          rcases List.mem_append.mp hp with hp | hp
          · obtain ⟨j, hj1, hj2, hj3⟩ := hA p hp
            refine ⟨j, hj1, ?_, ?_⟩
            · rw [hl2, happ, List.length_append]
              simp only [List.length_cons, List.length_nil]
              omega
            · rw [hl2, happ, List.getD_append _ _ _ _ hj2]
              exact hj3
          · have hp' : p = s' := by simpa using hp
            subst hp'
            refine ⟨i, rfl, ?_, ?_⟩
            · rw [hl2, happ, List.length_append, hi, hieq]
              simp
            · rw [hl2, happ]
              have hends : s'.endSec = s.endSec := rfl
              rw [hends, hi, hieq, getD_append_self]
      have hB' : ∀ p ∈ processed ++ [s'], ∀ q ∈ processed ++ [s'],
          p.layerIndex = q.layerIndex → p.startSec < q.startSec →
          p.endSec + 1/10 ≤ q.startSec := by
        intro p hp q hq heq hlt
        rcases List.mem_append.mp hp with hp | hp <;>
          rcases List.mem_append.mp hq with hq | hq
        · exact hB p hp q hq heq hlt
        · -- q is the new label s'
          have hq' : q = s' := by simpa using hq
          subst hq'
          obtain ⟨j, hj1, hj2, hj3⟩ := hA p hp
          have hji : j = i := by
            have : some j = some i := by rw [← hj1, heq]
            exact Option.some.inj this
          rw [hji] at hj2 hj3
          by_cases hf : i < layers.length
          · obtain ⟨hle, -⟩ := place_found s.startSec s.endSec layers hf
            rw [← hi] at hle
            have hss : s'.startSec = s.startSec := rfl
            rw [hss]
            linarith
          · exact absurd hj2 hf
        · -- p is the new label s', q ∈ processed: contradicts the ordering
          have hp' : p = s' := by simpa using hp
          subst hp'
          have hqs : q.startSec ≤ s.startSec := hord q hq s (List.mem_cons_self s rest)
          have hss : s'.startSec = s.startSec := rfl
          rw [hss] at hlt
          exact absurd hlt (not_lt.mpr hqs)
        · have hp' : p = s' := by simpa using hp
          have hq' : q = s' := by simpa using hq
          subst hp'; subst hq'
          exact absurd hlt (lt_irrefl _)
      refine ih (processed ++ [s']) layers₂ hA' hB'
        (fun l hl => hdur l (List.mem_cons_of_mem _ hl)) ?_ hsort'
      intro p hp l hl
      rcases List.mem_append.mp hp with hp | hp
      · exact hord p hp l (List.mem_cons_of_mem _ hl)
      · have hp' : p = s' := by simpa using hp
        subst hp'
        exact hs_rest l hl

/-! ## Helper facts about `toFixed6` on the example values -/

theorem toFixed6_one : toFixed6 1 = "1.000000" := by
  have h : (Int.floor ((1 : ℚ) * 1000000 + 1/2)).toNat = 1000000 := by norm_num; omega
  simp only [toFixed6, h]
  decide

theorem toFixed6_fiveHalves : toFixed6 (5/2) = "2.500000" := by
  have h : (Int.floor ((5/2 : ℚ) * 1000000 + 1/2)).toNat = 2500000 := by norm_num; omega
  simp only [toFixed6, h]
  decide

/-! ## Claim theorems -/

/-- C5: `calculateLabelLayers` sorts by start time and greedily assigns
each label to the first lane whose recorded end time plus the 0.1 s gap
fits, else opens a new lane; on the labels `(0,5), (3,8), (6,10)` the
assigned layer indices are `0, 1, 0`. -/
theorem c5_layeringExample :
    (calculateLabelLayers
      [⟨"a", "0", 0, 5, "", none, none⟩, ⟨"b", "0", 3, 8, "", none, none⟩,
       ⟨"c", "0", 6, 10, "", none, none⟩]).map (fun l => l.layerIndex)
      = [some 0, some 1, some 0] := by
  norm_num [calculateLabelLayers, List.insertionSort, List.orderedInsert, layerStep, place,
    startLE]

/-- C10 (implicit): if every input label satisfies `start < end`, then
any two labels that `calculateLabelLayers` puts in the same lane are
separated: the later-starting one begins at least `0.1` s after the
earlier one ends. -/
theorem c10_sameLaneSeparation (labels : List Label)
    (hdur : ∀ l ∈ labels, l.startSec < l.endSec) :
    ∀ p ∈ calculateLabelLayers labels, ∀ q ∈ calculateLabelLayers labels,
      p.layerIndex = q.layerIndex → p.startSec < q.startSec →
      p.endSec + 1/10 ≤ q.startSec := by
  unfold calculateLabelLayers
  refine layerFold_inv (List.insertionSort startLE labels) [] [] ?_ ?_ ?_ ?_ ?_
  · intro p hp
    exact absurd hp (List.not_mem_nil p)
  · intro p hp
    exact absurd hp (List.not_mem_nil p)
  · intro l hl
    exact hdur l ((List.perm_insertionSort startLE labels).mem_iff.mp hl)
  · intro p hp
    exact absurd hp (List.not_mem_nil p)
  · exact List.sorted_insertionSort startLE labels

/-- Witness for C10: on the concrete layered labels `(0,5)` and `(6,10)`,
which share lane 0, the separation property holds: `5 + 1/10 ≤ 6`. -/
theorem c10_witness :
    (⟨"a", "0", 0, 5, "", none, some 0⟩ : Label).endSec + 1/10 ≤
      (⟨"c", "0", 6, 10, "", none, some 0⟩ : Label).startSec := by
  have hcalc : calculateLabelLayers
      [⟨"a", "0", 0, 5, "", none, none⟩, ⟨"b", "0", 3, 8, "", none, none⟩,
       ⟨"c", "0", 6, 10, "", none, none⟩]
      = [⟨"a", "0", 0, 5, "", none, some 0⟩, ⟨"b", "0", 3, 8, "", none, some 1⟩,
         ⟨"c", "0", 6, 10, "", none, some 0⟩] := by
    norm_num [calculateLabelLayers, List.insertionSort, List.orderedInsert, layerStep, place,
      startLE]
  exact c10_sameLaneSeparation
    [⟨"a", "0", 0, 5, "", none, none⟩, ⟨"b", "0", 3, 8, "", none, none⟩,
     ⟨"c", "0", 6, 10, "", none, none⟩]
    (by intro l hl; fin_cases hl <;> norm_num)
    (⟨"a", "0", 0, 5, "", none, some 0⟩ : Label) (by rw [hcalc]; simp)
    (⟨"c", "0", 6, 10, "", none, some 0⟩ : Label) (by rw [hcalc]; simp)
    rfl (by norm_num)

/-- C6 counterexample: the claim says the stored-label invariant
(`start < end`, both within `[0, duration]`) is preserved by the drag
operation.  With `duration = 10`, the valid label `(0,5)` and a pointer
clamped to `t = 10` (grab offset 0), the drag produces `end = 15 > 10`:
the code never clamps the dragged label's end to the duration. -/
theorem c6_counterexample :
    ((0:ℚ) ≤ 0 ∧ (0:ℚ) < 5 ∧ (5:ℚ) ≤ 10) ∧
    (dragLabelAt "a" (getPointerTime 10 0 1 10) 0
      [⟨"a", "0", 0, 5, "", none, none⟩]).map (fun l => l.endSec) = [15] ∧
    ¬ ((15:ℚ) ≤ 10) := by
  refine ⟨by norm_num, ?_, by norm_num⟩
  norm_num [dragLabelAt, getPointerTime]

/-- C6 (amended): with pointer times clamped to `[0, duration]`, the
resize operation preserves `0 ≤ start`, the 0.05 s minimum gap
`start + 1/20 ≤ end`, and `end ≤ duration`; the drag operation preserves
`0 ≤ start`, `start < end` and the label's duration (but not
`end ≤ duration`); and `getPointerTime` itself always lands in
`[0, duration]`. -/
theorem c6_amendedInvariant (duration t startOffset : ℚ) (id : String) (side : ResizeSide)
    (labels : List Label) (ht0 : 0 ≤ t) (htd : t ≤ duration) :
    ((∀ l ∈ labels, 0 ≤ l.startSec ∧ l.startSec + 1/20 ≤ l.endSec ∧ l.endSec ≤ duration) →
      ∀ l ∈ resizeLabelAt id side t labels,
        0 ≤ l.startSec ∧ l.startSec + 1/20 ≤ l.endSec ∧ l.endSec ≤ duration) ∧
    ((∀ l ∈ labels, 0 ≤ l.startSec ∧ l.startSec < l.endSec) →
      ∀ l ∈ dragLabelAt id t startOffset labels,
        0 ≤ l.startSec ∧ l.startSec < l.endSec ∧
        ∃ l0 ∈ labels, l.endSec - l.startSec = l0.endSec - l0.startSec) ∧
    (∀ x scrollLeft pixelsPerSecond : ℚ, 0 ≤ duration →
      0 ≤ getPointerTime x scrollLeft pixelsPerSecond duration ∧
      getPointerTime x scrollLeft pixelsPerSecond duration ≤ duration) := by
  refine ⟨?_, ?_, ?_⟩
  · intro hinv l hl
    unfold resizeLabelAt at hl
    rcases List.mem_map.mp hl with ⟨a, ha, rfl⟩
    obtain ⟨h1, h2, h3⟩ := hinv a ha
    by_cases hid : a.id = id
    · rw [if_pos hid]
      cases side
      · refine ⟨le_min ht0 (by linarith), ?_, h3⟩
        have hmin := min_le_right t (a.endSec - 1/20)
        dsimp only
        linarith
      · refine ⟨h1, le_max_right t (a.startSec + 1/20), max_le htd (by linarith)⟩
    · rw [if_neg hid]
      exact ⟨h1, h2, h3⟩
  · intro hinv l hl
    unfold dragLabelAt at hl
    rcases List.mem_map.mp hl with ⟨a, ha, rfl⟩
    obtain ⟨h1, h2⟩ := hinv a ha
    by_cases hid : a.id = id
    · rw [if_pos hid]
      refine ⟨le_max_left 0 _, ?_, a, ha, by ring⟩
      have : (0:ℚ) < a.endSec - a.startSec := by linarith
      dsimp only
      linarith
    · rw [if_neg hid]
      exact ⟨h1, h2, a, ha, rfl⟩
  · intro x scrollLeft pixelsPerSecond hd
    unfold getPointerTime
    exact ⟨le_max_left 0 _, max_le hd (min_le_right _ _)⟩

/-- Witness for C6 (amended): resizing the valid label `(1,2)` from the
start edge with clamped pointer time `3` (duration 10) yields the label
`(39/20, 2)`, which still satisfies the invariant. -/
theorem c6_witness :
    0 ≤ (⟨"a", "0", 39/20, 2, "", none, none⟩ : Label).startSec ∧
    (⟨"a", "0", 39/20, 2, "", none, none⟩ : Label).startSec + 1/20 ≤
      (⟨"a", "0", 39/20, 2, "", none, none⟩ : Label).endSec ∧
    (⟨"a", "0", 39/20, 2, "", none, none⟩ : Label).endSec ≤ 10 :=
  (c6_amendedInvariant 10 3 0 "a" ResizeSide.start [⟨"a", "0", 1, 2, "", none, none⟩]
      (by norm_num) (by norm_num)).1
    (by intro l hl; fin_cases hl; norm_num)
    (⟨"a", "0", 39/20, 2, "", none, none⟩ : Label)
    (by norm_num [resizeLabelAt, min_def])

/-- C7: on release of a creation drag with `start = min(anchor, current)`
and `end = max(anchor, current)` (so `end - start = |current - anchor|`),
a label is appended only when the span exceeds 0.05 s; otherwise the
label list is unchanged.  A committed label takes the active category's
key and color, and its text unless the active category is the reserved
`"0"`, which yields empty text. -/
theorem c7_creationThreshold (cfg : LabelConfig) (newId : String) (anchor current : ℚ)
    (labels : List Label) :
    (|current - anchor| ≤ 1/20 → commitCreatingLabel cfg newId anchor current labels = labels) ∧
    (1/20 < |current - anchor| →
      commitCreatingLabel cfg newId anchor current labels =
        labels ++ [{ id := newId, configId := cfg.key, startSec := min anchor current,
                     endSec := max anchor current,
                     text := if cfg.key = "0" then "" else cfg.text,
                     color := some cfg.color, layerIndex := none }]) := by
  have habs : max anchor current - min anchor current = |current - anchor| :=
    max_sub_min_eq_abs anchor current
  constructor
  · intro h
    have hc : ¬ (max anchor current - min anchor current > 1/20) := by
      rw [habs]
      exact not_lt.mpr h
    simp only [commitCreatingLabel]
    rw [if_neg hc]
  · intro h
    have hc : max anchor current - min anchor current > 1/20 := by
      rw [habs]
      exact h
    simp only [commitCreatingLabel]
    rw [if_pos hc]

/-- Witness for C7: a drag of exactly 0.05 s (`anchor 2`, `current 41/20`)
commits nothing, while a drag of 1 s commits a label inheriting category
`"1"`'s text and color. -/
theorem c7_witness :
    commitCreatingLabel ⟨"1", "bird", "#ef4444"⟩ "n1" 2 (41/20) [] = [] ∧
    commitCreatingLabel ⟨"1", "bird", "#ef4444"⟩ "n2" 2 3 [] =
      [⟨"n2", "1", 2, 3, "bird", some "#ef4444", none⟩] := by
  constructor
  · refine (c7_creationThreshold ⟨"1", "bird", "#ef4444"⟩ "n1" 2 (41/20) []).1 ?_
    rw [show (41:ℚ)/20 - 2 = 1/20 from by norm_num, abs_of_nonneg (by norm_num : (0:ℚ) ≤ 1/20)]
  · have h := (c7_creationThreshold ⟨"1", "bird", "#ef4444"⟩ "n2" 2 3 []).2 (by norm_num)
    rw [h]
    norm_num [min_def, max_def]
    intro hc
    exact absurd hc (by decide)

/-- C8: the reassign branch of category deletion converts every label
whose `configId` equals the deleted key to `configId = "0"` with color
`"#ffffff"`, leaves the rest untouched, preserves the label count, and
leaves no label referencing the deleted key (the deleted key is never
`"0"`, the undeletable default). -/
theorem c8_reassignOnDelete (key : String) (labels : List Label) (hkey : key ≠ "0") :
    (∀ l ∈ reassignLabelsToDefault key labels, l.configId ≠ key) ∧
    (reassignLabelsToDefault key labels).length = labels.length ∧
    (∀ l ∈ labels, l.configId = key →
      { l with configId := "0", color := some "#ffffff" } ∈
        reassignLabelsToDefault key labels) ∧
    (∀ l ∈ labels, l.configId ≠ key → l ∈ reassignLabelsToDefault key labels) := by
  refine ⟨?_, ?_, ?_, ?_⟩
  · intro l hl
    unfold reassignLabelsToDefault at hl
    rcases List.mem_map.mp hl with ⟨a, ha, rfl⟩
    by_cases h : a.configId = key
    · rw [if_pos h]
      exact fun hc => hkey hc.symm
    · rw [if_neg h]
      exact h
  · unfold reassignLabelsToDefault
    exact List.length_map _ _
  · intro l hl h
    unfold reassignLabelsToDefault
    refine List.mem_map.mpr ⟨l, hl, ?_⟩
    rw [if_pos h]
  · intro l hl h
    unfold reassignLabelsToDefault
    refine List.mem_map.mpr ⟨l, hl, ?_⟩
    rw [if_neg h]

/-- Witness for C8: deleting category `"1"` used by two labels (reassign
policy) converts the first label to the default category with white
color, and keeps both labels. -/
theorem c8_witness :
    ((⟨"a", "0", 0, 1, "t", some "#ffffff", none⟩ : Label) ∈
      reassignLabelsToDefault "1"
        [⟨"a", "1", 0, 1, "t", some "#ef4444", none⟩,
         ⟨"b", "1", 2, 3, "t", some "#ef4444", none⟩]) ∧
    (reassignLabelsToDefault "1"
        [⟨"a", "1", 0, 1, "t", some "#ef4444", none⟩,
         ⟨"b", "1", 2, 3, "t", some "#ef4444", none⟩]).length = 2 := by
  constructor
  · exact (c8_reassignOnDelete "1"
        [⟨"a", "1", 0, 1, "t", some "#ef4444", none⟩,
         ⟨"b", "1", 2, 3, "t", some "#ef4444", none⟩] (by decide)).2.2.1
      ⟨"a", "1", 0, 1, "t", some "#ef4444", none⟩ (by simp) rfl
  · exact (c8_reassignOnDelete "1"
        [⟨"a", "1", 0, 1, "t", some "#ef4444", none⟩,
         ⟨"b", "1", 2, 3, "t", some "#ef4444", none⟩] (by decide)).2.1

/-- C9: the Audacity export has no header, and emits per label in list
order exactly `start⟨tab⟩end⟨tab⟩text⟨newline⟩` with the times printed to
six decimal places; on `{start: 1.0, end: 2.5, text: "call"}` the output
is exactly `"1.000000\t2.500000\tcall\n"`. -/
theorem c9_audacityFormat :
    exportToAudacityContent [] = "" ∧
    (∀ (l : Label) (rest : List Label),
      exportToAudacityContent (l :: rest) =
        toFixed6 l.startSec ++ "\t" ++ toFixed6 l.endSec ++ "\t" ++ l.text ++ "\n" ++
          exportToAudacityContent rest) ∧
    exportToAudacityContent [⟨"x", "0", 1, 5/2, "call", none, none⟩] =
      "1.000000\t2.500000\tcall\n" := by
  have hcons : ∀ (l : Label) (rest : List Label),
      exportToAudacityContent (l :: rest) = audacityLine l ++ exportToAudacityContent rest := by
    intro l rest
    unfold exportToAudacityContent
    rw [List.foldl_cons, string_foldl_append]
    simp
  refine ⟨rfl, ?_, ?_⟩
  · intro l rest
    rw [hcons]
    unfold audacityLine
    simp [String.append_assoc]
  · rw [hcons]
    unfold audacityLine
    rw [show (⟨"x", "0", 1, 5/2, "call", none, none⟩ : Label).startSec = 1 from rfl,
      show (⟨"x", "0", 1, 5/2, "call", none, none⟩ : Label).endSec = 5/2 from rfl,
      toFixed6_one, toFixed6_fiveHalves]
    decide

/-! ## The analyzer's success and failure paths (for C1, C2, C3) -/

/-- When the buffer is shorter than one frame, the floor-divided width
is at most `-1`. -/
theorem fdiv_le_neg_one (N fft hop : ℕ) (hhop : 0 < hop) (hlt : N < fft) :
    ((N : ℤ) - (fft : ℤ)).fdiv (hop : ℤ) ≤ -1 := by
  have hb : (0 : ℤ) < (hop : ℤ) := by exact_mod_cast hhop
  have hmod : 0 ≤ ((N : ℤ) - (fft : ℤ)).fmod (hop : ℤ) := Int.fmod_nonneg' _ hb
  have hident : (hop : ℤ) * (((N : ℤ) - (fft : ℤ)).fdiv (hop : ℤ)) +
      ((N : ℤ) - (fft : ℤ)).fmod (hop : ℤ) = (N : ℤ) - (fft : ℤ) := Int.fdiv_add_fmod _ _
  have ha : (N : ℤ) - (fft : ℤ) < 0 := by
    have hc : (N : ℤ) < (fft : ℤ) := by exact_mod_cast hlt
    linarith
  by_contra hcon
  push_neg at hcon
  have h0 : 0 ≤ ((N : ℤ) - (fft : ℤ)).fdiv (hop : ℤ) := by omega
  have hge : 0 ≤ (hop : ℤ) * (((N : ℤ) - (fft : ℤ)).fdiv (hop : ℤ)) :=
    mul_nonneg (le_of_lt hb) h0
  linarith

/-- Success path of `generateSpectrogramData`: when the buffer holds at
least one full frame, the allocation size is non-negative and the built
record is returned. -/
theorem generate_ok (P : MathPrims R) (samples : List R) (fftSize hopSize : ℕ)
    (sampleRate : ℚ) (hhop : 0 < hopSize) (hN : fftSize ≤ samples.length) :
    generateSpectrogramData P samples fftSize hopSize sampleRate =
      Except.ok (spectrogramRecord P samples fftSize hopSize sampleRate) := by
  have hw0 : 0 ≤ ((samples.length : ℤ) - (fftSize : ℤ)).fdiv (hopSize : ℤ) :=
    Int.fdiv_nonneg (by rw [Int.sub_nonneg]; exact_mod_cast hN) (by positivity)
  simp only [generateSpectrogramData]
  rw [if_neg]
  rw [not_le]
  calc (-1 : ℚ) < 0 := by norm_num
    _ ≤ (((((samples.length : ℤ) - (fftSize : ℤ)).fdiv (hopSize : ℤ)) : ℚ)) *
          ((fftSize : ℚ) / 2) :=
      mul_nonneg (by exact_mod_cast hw0) (by positivity)

/-- Failure path of `generateSpectrogramData`: with `fftSize ≥ 2` (so
`height ≥ 1`) and a buffer shorter than one frame, `width ≤ -1`, the
requested allocation size is at most `-1`, and the call throws the
`RangeError`. -/
theorem generate_err (P : MathPrims R) (samples : List R) (fftSize hopSize : ℕ)
    (sampleRate : ℚ) (hhop : 0 < hopSize) (hfft2 : 2 ≤ fftSize)
    (hN : samples.length < fftSize) :
    generateSpectrogramData P samples fftSize hopSize sampleRate =
      Except.error JsError.rangeError := by
  have hd : ((samples.length : ℤ) - (fftSize : ℤ)).fdiv (hopSize : ℤ) ≤ -1 :=
    fdiv_le_neg_one samples.length fftSize hopSize hhop hN
  have hdQ : ((((samples.length : ℤ) - (fftSize : ℤ)).fdiv (hopSize : ℤ)) : ℚ) ≤ -1 := by
    exact_mod_cast hd
  have hh1 : (1 : ℚ) ≤ (fftSize : ℚ) / 2 := by
    have h2 : (2 : ℚ) ≤ (fftSize : ℚ) := by exact_mod_cast hfft2
    linarith
  simp only [generateSpectrogramData]
  rw [if_pos]
  nlinarith [hdQ, hh1]

/-- C1 counterexample: the claim quantifies over every buffer length N
and asserts a returned field.  For the empty buffer (N = 0) with the
valid configuration `fftSize = 1024 = 2^10`, `hopSize = 512`, the code
computes `width = -2`, the `new Uint8Array(width * height)` length is
negative, and the call throws a `RangeError`: no magnitude field is
returned. -/
theorem c1_counterexample :
    ((1024 : ℕ) = 2 ^ 10 ∧ (0 : ℕ) < 512) ∧
    generateSpectrogramData ratPrims ([] : List ℚ) 1024 512 48000 =
      Except.error JsError.rangeError := by
  refine ⟨⟨by norm_num, by norm_num⟩, ?_⟩
  exact generate_err ratPrims ([] : List ℚ) 1024 512 48000 (by norm_num) (by norm_num)
    (by simp)

/-- C1 (amended): for every valid configuration (`fftSize` a power of
two `≥ 2`, `hopSize > 0`): when the buffer holds at least one frame
(`fftSize ≤ N`) the call returns a magnitude field with
`width = ⌊(N - fftSize)/hopSize⌋` and `height = fftSize/2`; when
`N < fftSize` the output-buffer allocation throws a `RangeError` and no
field is returned. -/
theorem c1_fieldDimensions (P : MathPrims R) (samples : List R) (fftSize hopSize : ℕ)
    (sampleRate : ℚ) (k : ℕ) (hk : 1 ≤ k) (hfft : fftSize = 2 ^ k) (hhop : 0 < hopSize) :
    (fftSize ≤ samples.length →
      ∃ field : SpectrogramData R,
        generateSpectrogramData P samples fftSize hopSize sampleRate = Except.ok field ∧
        field.width = ((samples.length : ℤ) - (fftSize : ℤ)).fdiv (hopSize : ℤ) ∧
        field.height = (fftSize : ℚ) / 2) ∧
    (samples.length < fftSize →
      generateSpectrogramData P samples fftSize hopSize sampleRate =
        Except.error JsError.rangeError) := by
  constructor
  · intro hN
    exact ⟨spectrogramRecord P samples fftSize hopSize sampleRate,
      generate_ok P samples fftSize hopSize sampleRate hhop hN, rfl, rfl⟩
  · intro hN
    refine generate_err P samples fftSize hopSize sampleRate hhop ?_ hN
    have hp : (2 : ℕ) ^ 1 ≤ 2 ^ k := Nat.pow_le_pow_right (by norm_num) hk
    rw [hfft]
    simpa using hp

/-- Witness for C1 (amended): a 2100-sample buffer at
`fftSize = 1024 = 2^10`, `hopSize = 512` returns a field with the
dimension formulas. -/
theorem c1_witness :
    ∃ field : SpectrogramData ℚ,
      generateSpectrogramData ratPrims (List.replicate 2100 (0:ℚ)) 1024 512 48000 =
        Except.ok field ∧
      field.width = (((List.replicate 2100 (0:ℚ)).length : ℤ) - (1024 : ℤ)).fdiv (512 : ℤ) ∧
      field.height = (1024 : ℚ) / 2 :=
  (c1_fieldDimensions ratPrims (List.replicate 2100 (0:ℚ)) 1024 512 48000 10
    (by norm_num) (by norm_num) (by norm_num)).1
    (by rw [List.length_replicate]; norm_num)

/-- C2 counterexample: the claim says the analysis fails with an
`InvalidConfig` error, returning no magnitude field, whenever `fftSize`
is not a power of two.  The code contains no validation at all: for
`fftSize = 12` (not a power of two) and `hopSize = 1` on a 20-sample
buffer it returns a perfectly ordinary magnitude field with
`width = 8`, `height = 6`. -/
theorem c2_counterexample :
    (¬ ∃ k : ℕ, (12:ℕ) = 2 ^ k) ∧
    ∃ field : SpectrogramData ℚ,
      generateSpectrogramData ratPrims (List.replicate 20 (0:ℚ)) 12 1 44100 =
        Except.ok field ∧
      field.width = 8 ∧ field.height = 6 := by
  constructor
  · rintro ⟨k, hk⟩
    rcases Nat.lt_or_ge k 4 with h | h
    · interval_cases k <;> norm_num at hk
    · have hpow : 2 ^ 4 ≤ 2 ^ k := Nat.pow_le_pow_right (by norm_num) h
      omega
  · refine ⟨spectrogramRecord ratPrims (List.replicate 20 (0:ℚ)) 12 1 44100,
      generate_ok ratPrims (List.replicate 20 (0:ℚ)) 12 1 44100 (by norm_num)
        (by rw [List.length_replicate]; norm_num),
      ?_, ?_⟩
    · show (((List.replicate 20 (0:ℚ)).length : ℤ) - ((12:ℕ) : ℤ)).fdiv ((1:ℕ) : ℤ) = 8
      decide
    · show ((12:ℕ) : ℚ) / 2 = 6
      norm_num

/-- C2 (amended): `generateSpectrogramData` performs no configuration
validation and defines no `InvalidConfig` error: whenever the buffer
holds at least one frame (`fftSize ≤ N`), it returns a magnitude field
with `width = ⌊(N - fftSize)/hopSize⌋` and `height = fftSize/2` (the
exact number, fractional for odd `fftSize`) for every `fftSize` and
every `hopSize ≥ 1`, including `fftSize` not a power of two; its only
failure is the generic `RangeError` from the output-buffer allocation
when the computed size is negative (`N < fftSize` with `fftSize ≥ 2`),
never an `InvalidConfig`. -/
theorem c2_noValidation (P : MathPrims R) (samples : List R) (fftSize hopSize : ℕ)
    (sampleRate : ℚ) (hhop : 0 < hopSize) :
    (fftSize ≤ samples.length →
      ∃ field : SpectrogramData R,
        generateSpectrogramData P samples fftSize hopSize sampleRate = Except.ok field ∧
        field.width = ((samples.length : ℤ) - (fftSize : ℤ)).fdiv (hopSize : ℤ) ∧
        field.height = (fftSize : ℚ) / 2) ∧
    (2 ≤ fftSize → samples.length < fftSize →
      generateSpectrogramData P samples fftSize hopSize sampleRate =
        Except.error JsError.rangeError) := by
  constructor
  · intro hN
    exact ⟨spectrogramRecord P samples fftSize hopSize sampleRate,
      generate_ok P samples fftSize hopSize sampleRate hhop hN, rfl, rfl⟩
  · intro hfft2 hN
    exact generate_err P samples fftSize hopSize sampleRate hhop hfft2 hN

/-- Witness for C2 (amended): the invalid configuration `fftSize = 12`,
`hopSize = 1` on 20 samples still returns a field with the dimension
formulas. -/
theorem c2_witness :
    ∃ field : SpectrogramData ℚ,
      generateSpectrogramData ratPrims (List.replicate 20 (0:ℚ)) 12 1 44100 =
        Except.ok field ∧
      field.width = (((List.replicate 20 (0:ℚ)).length : ℤ) - (12 : ℤ)).fdiv (1 : ℤ) ∧
      field.height = (12 : ℚ) / 2 :=
  (c2_noValidation ratPrims (List.replicate 20 (0:ℚ)) 12 1 44100 (by norm_num)).1
    (by rw [List.length_replicate]; norm_num)

/-! ## Write-once analysis of the analyzer's main loop (for C3) -/

theorem writeColumn_apply_self (P : MathPrims R) (samples : List R) (fftSize hopSize : ℕ)
    (buf : ℕ → R) (col bin : ℕ) (hbin : bin < fftSize / 2) :
    writeColumn P samples fftSize hopSize buf col
        (col * (fftSize / 2) + (fftSize / 2 - 1 - bin)) =
      columnIntensity P fftSize (((samples.drop (col * hopSize)).take fftSize).toArray) bin := by
  unfold writeColumn
  refine foldl_update_of_mem
      (fun b => col * (fftSize / 2) + (fftSize / 2 - 1 - b))
      (fun b => columnIntensity P fftSize (((samples.drop (col * hopSize)).take fftSize).toArray) b)
      (col * (fftSize / 2) + (fftSize / 2 - 1 - bin))
      (columnIntensity P fftSize (((samples.drop (col * hopSize)).take fftSize).toArray) bin)
      (List.range (fftSize / 2)) buf
      ⟨bin, List.mem_range.mpr hbin, rfl⟩ ?_
  intro y hy hkey
  have hy' : y < fftSize / 2 := List.mem_range.mp hy
  have hkey' : col * (fftSize / 2) + (fftSize / 2 - 1 - y) =
      col * (fftSize / 2) + (fftSize / 2 - 1 - bin) := hkey
  have hyb : y = bin := by omega
  rw [hyb]

theorem specStep_apply_ne (P : MathPrims R) (samples : List R) (fftSize hopSize : ℕ)
    (buf : ℕ → R) (c target : ℕ)
    (hk : ∀ bin < fftSize / 2, c * (fftSize / 2) + (fftSize / 2 - 1 - bin) ≠ target) :
    specStep P samples fftSize hopSize buf c target = buf target := by
  unfold specStep
  split
  · rfl
  · unfold writeColumn
    exact foldl_update_of_forall_ne
      (fun b => c * (fftSize / 2) + (fftSize / 2 - 1 - b))
      (fun b => columnIntensity P fftSize (((samples.drop (c * hopSize)).take fftSize).toArray) b)
      target (List.range (fftSize / 2)) buf
      (fun x hx => hk x (List.mem_range.mp hx))

theorem foldl_specStep_ne (P : MathPrims R) (samples : List R) (fftSize hopSize target : ℕ) :
    ∀ (l : List ℕ) (buf : ℕ → R),
      (∀ c ∈ l, ∀ bin < fftSize / 2, c * (fftSize / 2) + (fftSize / 2 - 1 - bin) ≠ target) →
      l.foldl (specStep P samples fftSize hopSize) buf target = buf target := by
  intro l
  induction l with
  | nil => intro buf _; rfl
  | cons a l ih =>
      intro buf h
      rw [List.foldl_cons, ih _ (fun c hc => h c (List.mem_cons_of_mem _ hc))]
      exact specStep_apply_ne P samples fftSize hopSize buf a target
        (h a (List.mem_cons_self a l))

/-- If `col` is strictly below the floor-division width then the frame
starting at `col * hop` fits inside the buffer. -/
theorem fdivColBound (N fft hop col : ℕ) (hhop : 0 < hop)
    (hcol : (col : ℤ) < ((N : ℤ) - (fft : ℤ)).fdiv (hop : ℤ)) :
    col * hop + fft ≤ N := by
  have hb : (0 : ℤ) < (hop : ℤ) := by exact_mod_cast hhop
  have hmod : 0 ≤ ((N : ℤ) - (fft : ℤ)).fmod (hop : ℤ) := Int.fmod_nonneg' _ hb
  have hident : (hop : ℤ) * (((N : ℤ) - (fft : ℤ)).fdiv (hop : ℤ)) +
      ((N : ℤ) - (fft : ℤ)).fmod (hop : ℤ) = (N : ℤ) - (fft : ℤ) := Int.fdiv_add_fmod _ _
  have h1 : (hop : ℤ) * (((N : ℤ) - (fft : ℤ)).fdiv (hop : ℤ)) ≤ (N : ℤ) - fft := by linarith
  have h2 : (col : ℤ) + 1 ≤ ((N : ℤ) - (fft : ℤ)).fdiv (hop : ℤ) := hcol
  have h3 : (hop : ℤ) * ((col : ℤ) + 1) ≤
      (hop : ℤ) * (((N : ℤ) - (fft : ℤ)).fdiv (hop : ℤ)) :=
    mul_le_mul_of_nonneg_left h2 (le_of_lt hb)
  have h4 : (hop : ℤ) * ((col : ℤ) + 1) ≤ (N : ℤ) - fft := le_trans h3 h1
  have h5 : ((col * hop + fft : ℕ) : ℤ) ≤ (N : ℤ) := by push_cast; nlinarith
  exact_mod_cast h5

/-- C3: for every magnitude field the analysis returns, every analysis
column `col < width` and bin `bin < fftSize/2`
(valid power-of-two configuration), the output cell at flat index
`col * height + (height - 1 - bin)` — bin 0 stored at the last row of
the column — is exactly the clamped dB intensity
`clamp((20·log10(sqrt(re² + im²) + 1e-6) + 60)·4, 0, 255)` of that bin's
FFT output of the Hann-windowed frame starting at sample
`col * hopSize` (see `columnIntensity`). -/
theorem c3_binStorage (P : MathPrims R) (samples : List R) (fftSize hopSize : ℕ)
    (sampleRate : ℚ) (k : ℕ) (hk : 1 ≤ k) (hfft : fftSize = 2 ^ k) (hhop : 0 < hopSize)
    (field : SpectrogramData R)
    (hok : generateSpectrogramData P samples fftSize hopSize sampleRate = Except.ok field)
    (col bin : ℕ)
    (hcol : (col : ℤ) < field.width)
    (hbin : bin < fftSize / 2) :
    field.data (col * (fftSize / 2) + (fftSize / 2 - 1 - bin)) =
      columnIntensity P fftSize (((samples.drop (col * hopSize)).take fftSize).toArray) bin := by
  have hfield : field = spectrogramRecord P samples fftSize hopSize sampleRate := by
    simp only [generateSpectrogramData] at hok
    split at hok
    · exact absurd hok (by simp)
    · exact (Except.ok.inj hok).symm
  subst hfield
  have hcol' : (col : ℤ) < ((samples.length : ℤ) - (fftSize : ℤ)).fdiv (hopSize : ℤ) := hcol
  have hbound : col * hopSize + fftSize ≤ samples.length :=
    fdivColBound samples.length fftSize hopSize col hhop hcol'
  have hcolN : col < (((samples.length : ℤ) - (fftSize : ℤ)).fdiv (hopSize : ℤ)).toNat := by
    omega
  show (List.range ((((samples.length : ℤ) - (fftSize : ℤ)).fdiv (hopSize : ℤ)).toNat)).foldl
      (specStep P samples fftSize hopSize) (fun _ => 0)
      (col * (fftSize / 2) + (fftSize / 2 - 1 - bin)) =
    columnIntensity P fftSize (((samples.drop (col * hopSize)).take fftSize).toArray) bin
  obtain ⟨m, hm⟩ : ∃ m, (((samples.length : ℤ) - (fftSize : ℤ)).fdiv (hopSize : ℤ)).toNat =
      (col + 1) + m :=
    ⟨(((samples.length : ℤ) - (fftSize : ℤ)).fdiv (hopSize : ℤ)).toNat - (col + 1), by omega⟩
  rw [hm, List.range_add, List.foldl_append]
  have houter : ((List.range m).map (fun x => (col + 1) + x)).foldl
      (specStep P samples fftSize hopSize)
      ((List.range (col + 1)).foldl (specStep P samples fftSize hopSize) (fun _ => 0))
      (col * (fftSize / 2) + (fftSize / 2 - 1 - bin)) =
      ((List.range (col + 1)).foldl (specStep P samples fftSize hopSize) (fun _ => 0))
      (col * (fftSize / 2) + (fftSize / 2 - 1 - bin)) := by
    refine foldl_specStep_ne P samples fftSize hopSize _ _ _ ?_
    intro c hc bin' hbin'
    rcases List.mem_map.mp hc with ⟨x, hx, rfl⟩
    have h1 : col * (fftSize / 2) + (fftSize / 2 - 1 - bin) < (col + 1) * (fftSize / 2) := by
      have hlt : fftSize / 2 - 1 - bin < fftSize / 2 := by omega
      calc col * (fftSize / 2) + (fftSize / 2 - 1 - bin)
          < col * (fftSize / 2) + fftSize / 2 := by omega
        _ = (col + 1) * (fftSize / 2) := by ring
    have h2 : (col + 1) * (fftSize / 2) ≤ (col + 1 + x) * (fftSize / 2) :=
      Nat.mul_le_mul_right _ (by omega)
    exact ne_of_gt (lt_of_lt_of_le h1
      (le_trans h2 (Nat.le_add_right _ _)))
  rw [houter, List.range_succ, List.foldl_append]
  show specStep P samples fftSize hopSize
      ((List.range col).foldl (specStep P samples fftSize hopSize) (fun _ => 0)) col
      (col * (fftSize / 2) + (fftSize / 2 - 1 - bin)) =
    columnIntensity P fftSize (((samples.drop (col * hopSize)).take fftSize).toArray) bin
  have hguard : ¬ (samples.length - col * hopSize < fftSize) := by omega
  unfold specStep
  rw [if_neg hguard]
  exact writeColumn_apply_self P samples fftSize hopSize _ col bin hbin

/-- Witness for C3: 6 zero samples, `fftSize = 2 = 2^1`, `hopSize = 1`;
the call succeeds, and in the returned field column 0, bin 0 sits at
flat index 0 and equals the clamped intensity of the first frame's FFT
bin 0. -/
theorem c3_witness :
    ∃ field : SpectrogramData ℚ,
      generateSpectrogramData ratPrims (List.replicate 6 (0:ℚ)) 2 1 44100 =
        Except.ok field ∧
      field.data 0 =
        columnIntensity ratPrims 2 ((((List.replicate 6 (0:ℚ)).drop 0).take 2).toArray) 0 := by
  have hok : generateSpectrogramData ratPrims (List.replicate 6 (0:ℚ)) 2 1 44100 =
      Except.ok (spectrogramRecord ratPrims (List.replicate 6 (0:ℚ)) 2 1 44100) :=
    generate_ok ratPrims (List.replicate 6 (0:ℚ)) 2 1 44100 (by norm_num)
      (by rw [List.length_replicate]; norm_num)
  exact ⟨spectrogramRecord ratPrims (List.replicate 6 (0:ℚ)) 2 1 44100, hok,
    c3_binStorage ratPrims (List.replicate 6 (0:ℚ)) 2 1 44100 1 (by norm_num) (by norm_num)
      (by norm_num) _ hok 0 0 (by decide) (by norm_num)⟩

/-! ## Scale-mapper lemmas (for C4) -/

theorem toMel_fromMel (m : ℝ) : toMel (fromMel m) = m := by
  unfold toMel fromMel
  have h10 : (1:ℝ) + 700 * ((10:ℝ) ^ (m / 2595) - 1) / 700 = (10:ℝ) ^ (m / 2595) := by ring
  rw [h10, Real.logb_rpow (by norm_num) (by norm_num)]
  ring

theorem toMel_lt_toMel {a b : ℝ} (ha : 0 ≤ a) (hab : a < b) : toMel a < toMel b := by
  unfold toMel
  have h1 : (0:ℝ) < 1 + a / 700 := by linarith
  have h2 : 1 + a / 700 < 1 + b / 700 := by linarith
  have hlog := Real.logb_lt_logb (b := 10) (by norm_num) h1 h2
  linarith

/-- C4 counterexample: the claim asserts the row↔frequency round trip
(within rounding) for all three scales whenever `0 ≤ minFreq < maxFreq`.
For the log scale with `minFreq = 0`, `maxFreq = 1` (allowed by that
hypothesis), `rowToFrequency` sends every row — row 0 here — to
frequency `1` (since `safeMin = max(0,1) = 1 = maxFreq`), and the tick
formula computes `pct = Math.log(1)/Math.log(1) = 0/0 = NaN`: no finite
row is recovered at all (the tick is skipped by the
`y >= 0 && y <= height` check), modelled as `none`.  The round trip for
row 0 therefore does not yield row 0, within rounding or otherwise. -/
theorem c4_counterexample :
    rowToFrequency FrequencyScale.log 0 1 100 0 = 1 ∧
    frequencyToRow FrequencyScale.log 0 1 100 (rowToFrequency FrequencyScale.log 0 1 100 0)
      = none := by
  have h1 : rowToFrequency FrequencyScale.log 0 1 100 0 = 1 := by
    unfold rowToFrequency
    norm_num
  refine ⟨h1, ?_⟩
  rw [h1]
  simp only [frequencyToRow]
  rw [if_pos]
  norm_num

/-- C4 (amended): for every pixel row `y ∈ [0, h)` the round trip
`frequencyToRow (rowToFrequency y) = some y` holds exactly for the
linear and mel scales whenever `0 ≤ minFreq < maxFreq` and `h > 0`; for
the log scale it additionally requires `maxFreq ≠ max(minFreq, 1)`: in
the degenerate configuration of the counterexample the tick formula's
quotient is `0/0` (NaN in JS) and no row is recovered. -/
theorem c4_roundTrip (scale : FrequencyScale) (minFreq maxFreq h y : ℝ)
    (hmin : 0 ≤ minFreq) (hlt : minFreq < maxFreq) (hh : 0 < h)
    (hy0 : 0 ≤ y) (hyh : y < h)
    (hlog : scale = FrequencyScale.log → maxFreq ≠ max minFreq 1) :
    frequencyToRow scale minFreq maxFreq h (rowToFrequency scale minFreq maxFreq h y)
      = some y := by
  cases scale
  case linear =>
    have hne : maxFreq - minFreq ≠ 0 := ne_of_gt (sub_pos.mpr hlt)
    simp only [rowToFrequency, frequencyToRow]
    rw [if_neg hne]
    congr 1
    field_simp
    ring
  case log =>
    have hsmpos : (0:ℝ) < max minFreq 1 := lt_of_lt_of_le one_pos (le_max_right _ _)
    have hmaxpos : (0:ℝ) < maxFreq := lt_of_le_of_lt hmin hlt
    have hrpos : (0:ℝ) < maxFreq / max minFreq 1 := div_pos hmaxpos hsmpos
    have hrne1 : maxFreq / max minFreq 1 ≠ 1 := by
      intro hc
      exact hlog rfl ((div_eq_one_iff_eq (ne_of_gt hsmpos)).mp hc)
    have hlogne : Real.log (maxFreq / max minFreq 1) ≠ 0 := by
      intro hc
      rcases Real.log_eq_zero.mp hc with hz | hz | hz
      · exact absurd hz (ne_of_gt hrpos)
      · exact hrne1 hz
      · exact absurd hz (by linarith)
    simp only [rowToFrequency, frequencyToRow]
    rw [if_neg hlogne]
    congr 1
    rw [mul_div_cancel_left₀ _ (ne_of_gt hsmpos), Real.log_rpow hrpos]
    field_simp
    ring
  case mel =>
    have hmono : toMel minFreq < toMel maxFreq := toMel_lt_toMel hmin hlt
    have hne : toMel maxFreq - toMel minFreq ≠ 0 := ne_of_gt (sub_pos.mpr hmono)
    simp only [rowToFrequency, frequencyToRow]
    rw [if_neg hne]
    congr 1
    rw [toMel_fromMel]
    field_simp
    ring

/-- Witness for C4 (amended): on the linear scale with
`minFreq = 0`, `maxFreq = 100`, a 50-pixel-high view, row 3 round-trips
exactly. -/
theorem c4_witness :
    frequencyToRow FrequencyScale.linear 0 100 50
      (rowToFrequency FrequencyScale.linear 0 100 50 3) = some 3 :=
  c4_roundTrip FrequencyScale.linear 0 100 50 3 (by norm_num) (by norm_num) (by norm_num)
    (by norm_num) (by norm_num) (fun hc => nomatch hc)

end SeeNote
